import Mathlib

/-!
Shallow embedding of the SigmaProtocol repository (src/sigma_protocol).

Arbitrary-precision unsigned integers (`BigUint`) are modelled as `Nat`,
signed ones (`BigInt`) as `Int`.  Rust functions returning `Option` become
Lean `Option`; a Rust panic (`unwrap` on `None`) is modelled as `none` of
the surrounding computation.  All call sites keep the `BigInt` values
non-negative, where Rust's truncated `%`/`/` agree with `Nat` division and,
after the `if r < 0 { r += m }` adjustment, with the Euclidean remainder.
-/

namespace SigmaProtocol

/-- `extended_euclidean` from `src/math.rs`.  The Rust function works on
`BigInt`, but it is only ever applied to values coming from `BigUint`
(non-negative), and the recursion preserves non-negativity, so the inputs
are modelled as `Nat`; the Bézout coefficients are `Int`.  Returns
`(gcd, x, y)`. -/
def extended_euclidean (a b : Nat) : Int × Int × Int :=
  if h : a = 0 then ((b : Int), 0, 1)
  else
    let r := extended_euclidean (b % a) a
    (r.1, r.2.2 - ((b / a : Nat) : Int) * r.2.1, r.2.1)
termination_by a
decreasing_by exact Nat.mod_lt _ (Nat.pos_of_ne_zero h)

/-- `modular_inverse_euclidean` from `src/math.rs`.  The final
`result.to_biguint()` of the Rust code yields `None` on a negative value,
modelled by the last `if`.  Rust's truncated `x % m` followed by the
`if result < 0 { result += m }` adjustment produces the Euclidean
remainder, which is what `Int.emod` computes, so the embedding matches the
source at every input with `m > 0` (at `m = 0` the Rust `%` panics; that
point is reachable only for `a = 1, m = 0`). -/
def modular_inverse_euclidean (a m : Nat) : Option Nat :=
  if a = 0 then none
  else if m = 1 then none
  else
    let r := extended_euclidean a m
    if r.1 ≠ 1 then none
    else
      let x := r.2.1 % (m : Int)
      let x2 := if x < 0 then x + (m : Int) else x
      if x2 < 0 then none else some x2.toNat

/-- The `while !exponent.is_zero()` loop of `mod_pow_positive_big`
(`src/math.rs`), with the mutable `result`, `base`, `exponent` as
arguments. -/
def mod_pow_loop (m result base expo : Nat) : Nat :=
  if h : expo = 0 then result
  else
    mod_pow_loop m (if expo % 2 = 1 then result * base % m else result)
      (base * base % m) (expo / 2)
termination_by expo
decreasing_by exact Nat.div_lt_self (Nat.pos_of_ne_zero h) one_lt_two

/-- `mod_pow_positive_big` from `src/math.rs`. -/
def mod_pow_positive_big (base expo m : Nat) : Nat :=
  if m = 1 then 0 else mod_pow_loop m 1 (base % m) expo

/-- `mod_pow_big` from `src/math.rs` (signed exponent). -/
def mod_pow_big (base : Nat) (expo : Int) (m : Nat) : Option Nat :=
  if m = 0 then none
  else if m = 1 then some 0
  else if expo < 0 then
    match modular_inverse_euclidean base m with
    | some inv => some (mod_pow_positive_big inv (-expo).toNat m)
    | none => none
  else some (mod_pow_positive_big base expo.toNat m)

/-! ### The sigma-protocol engine (`src/main.rs`) -/

/-- `Key` from `src/main.rs`: a witness pair. -/
structure Key where
  alpha : Nat
  beta : Nat
deriving DecidableEq

/-- Terminal outcome of a verification run (`send_proof` in `src/main.rs`):
`Verified` is the "you know the secret key" transcript message, `Rejected`
the "you do not know the secret key" one, `Failed` the
"task finished with an error" one. -/
inductive Outcome where
  | Verified
  | Rejected
  | Failed
deriving DecidableEq

/-- `compute_u` from `src/main.rs`:
`(mod_pow_big(g, α, q).unwrap() * mod_pow_big(h, β, q).unwrap()) % q`.
The two `.unwrap()` panics are modelled as `none`.  (The `to_bigint`
conversions of `BigUint` values always succeed, so their `exit` branches
are dead.) -/
def compute_u (key : Key) (g h q : Nat) : Option Nat :=
  match mod_pow_big g (key.alpha : Int) q, mod_pow_big h (key.beta : Int) q with
  | some x, some y => some (x * y % q)
  | _, _ => none

/-- `send_proof` from `src/main.rs`, reduced to its terminal outcome.
The outer `none` models a panic inside `compute_u`; `some Failed` is the
early return of the `mod_pow_big(&u, &c, &q)` failure branch, which sends
the distinct error transcript message. -/
def send_proof (key : Key) (u ut : Nat) (c : Int) (g h q : Nat) :
    Option Outcome :=
  match compute_u key g h q with
  | none => none
  | some uz =>
    match mod_pow_big u c q with
    | none => some Outcome.Failed
    | some uc =>
      let utuc := ut * uc % q
      some (if uz = utuc then Outcome.Verified else Outcome.Rejected)

/-- One honest protocol run, following `start_proof` in `src/main.rs`, with
the two random witness draws and the challenge as parameters: `u` and `u_t`
are the two commitments and the response is
`((alpha_t + alpha*c) % q, (beta_t + beta*c) % q)` exactly as in the
source. -/
def honest_run (q g h alpha beta alphat betat c : Nat) : Option Outcome :=
  match compute_u ⟨alpha, beta⟩ g h q, compute_u ⟨alphat, betat⟩ g h q with
  | some u, some ut =>
      send_proof ⟨(alphat + alpha * c) % q, (betat + beta * c) % q⟩
        u ut (c : Int) g h q
  | _, _ => none

/-! ### Miller–Rabin (`src/key_gen.rs`) -/

/-- The `while t % 2 == 0 { t /= 2; s += 1 }` loop of
`is_prime_miller_rabin` (`src/key_gen.rs`): returns `(s, t)`.  The `t ≠ 0`
guard is for termination only; the source calls this with `t = n - 1 ≥ 4`,
where it never applies (at `t = 0` the Rust loop would never exit). -/
def oddPart (t : Nat) : Nat × Nat :=
  if h : t % 2 = 0 ∧ t ≠ 0 then
    let p := oddPart (t / 2)
    (p.1 + 1, p.2)
  else (0, t)
termination_by t
decreasing_by exact Nat.div_lt_self (Nat.pos_of_ne_zero h.2) one_lt_two

/-- The inner `for _ in 0..s-1` squaring loop of `is_prime_miller_rabin`:
the result is `true` when the round passes (the continue-to-label-A jump),
`false` when the function returns `false`; falling off the end of the loop
returns `false`.  A `mod_pow_big` failure makes the round pass (it also
jumps to the next round). -/
def mrSquareLoop (n x : Nat) : Nat → Bool
  | 0 => false
  | k + 1 =>
    match mod_pow_big x 2 n with
    | none => true
    | some x2 =>
      if x2 = 1 then false
      else if x2 = n - 1 then true
      else mrSquareLoop n x2 k

/-- One round of `is_prime_miller_rabin` for a drawn witness `a`:
`x = mod_pow_big(a, t, n)` (a failure skips to the next round), pass if
`x ∈ {1, n-1}`, otherwise run the squaring loop `s - 1` times. -/
def mrRound (n t s a : Nat) : Bool :=
  match mod_pow_big a (t : Int) n with
  | none => true
  | some x => if x = 1 ∨ x = n - 1 then true else mrSquareLoop n x (s - 1)

/-- `is_prime_miller_rabin` from `src/key_gen.rs`.  The `k` random
witnesses drawn by `gen_biguint_range(2, n-2)` (one per round) are passed
explicitly as the list `ws`. -/
def is_prime_miller_rabin (n : Nat) (ws : List Nat) : Bool :=
  if n ≤ 1 then false
  else if n = 2 ∨ n = 3 then true
  else if n % 2 = 0 then false
  else
    let st := oddPart (n - 1)
    ws.all fun a => mrRound n st.2 st.1 a

/-! ### Characterization of the exponentiation kernel -/

theorem mod_pow_loop_eq (m : Nat) (hm : 2 ≤ m) (e : Nat) :
    ∀ r b, r < m → mod_pow_loop m r b e = r * b ^ e % m := by
  induction e using Nat.strong_induction_on with
  | _ e ih =>
    intro r b hr
    unfold mod_pow_loop
    by_cases he : e = 0
    · simp [he, Nat.mod_eq_of_lt hr]
    · simp only [he, dite_false]
      have hdiv : e / 2 < e := Nat.div_lt_self (Nat.pos_of_ne_zero he) one_lt_two
      have hmpos : 0 < m := by omega
      have hkey : ∀ r2 : Nat, r2 * (b * b % m) ^ (e / 2) % m
          = r2 * (b * b) ^ (e / 2) % m := by
        intro r2
        conv_lhs => rw [Nat.mul_mod, ← Nat.pow_mod, ← Nat.mul_mod]
      have hbb : b * b = b ^ 2 := (sq b).symm
      by_cases hodd : e % 2 = 1
      · rw [if_pos hodd, ih _ hdiv _ _ (Nat.mod_lt _ hmpos), hkey,
          Nat.mod_mul_mod, hbb, ← pow_mul]
        have he2 : e = 2 * (e / 2) + 1 := by omega
        conv_rhs => rw [he2]
        rw [pow_succ]
        ring_nf
      · rw [if_neg hodd, ih _ hdiv _ _ hr, hkey, hbb, ← pow_mul]
        have he2 : e = 2 * (e / 2) := by omega
        conv_rhs => rw [he2]

theorem mod_pow_positive_eq (base expo m : Nat) (hm : 2 ≤ m) :
    mod_pow_positive_big base expo m = base ^ expo % m := by
  unfold mod_pow_positive_big
  rw [if_neg (by omega), mod_pow_loop_eq m hm expo 1 (base % m) (by omega),
    one_mul, ← Nat.pow_mod]

theorem mod_pow_big_nonneg (base : Nat) (e : Int) (m : Nat) (hm : 2 ≤ m)
    (he : 0 ≤ e) : mod_pow_big base e m = some (base ^ e.toNat % m) := by
  unfold mod_pow_big
  rw [if_neg (by omega), if_neg (by omega), if_neg (by omega),
    mod_pow_positive_eq base e.toNat m hm]

theorem mod_pow_big_neg (base : Nat) (e : Int) (m : Nat) (hm : 2 ≤ m)
    (he : e < 0) :
    mod_pow_big base e m
      = (modular_inverse_euclidean base m).map
          (fun j => j ^ (-e).toNat % m) := by
  unfold mod_pow_big
  rw [if_neg (by omega), if_neg (by omega), if_pos he]
  cases hinv : modular_inverse_euclidean base m with
  | none => rfl
  | some j => simp [mod_pow_positive_eq j (-e).toNat m hm]

/-! ### Correctness of the extended Euclidean algorithm -/

theorem extended_euclidean_gcd (a : Nat) :
    ∀ b, (extended_euclidean a b).1 = (Nat.gcd a b : Int) := by
  induction a using Nat.strong_induction_on with
  | _ a ih =>
    intro b
    unfold extended_euclidean
    by_cases ha : a = 0
    · simp [ha]
    · simp only [ha, dite_false]
      show (extended_euclidean (b % a) a).1 = (Nat.gcd a b : Int)
      rw [ih (b % a) (Nat.mod_lt b (Nat.pos_of_ne_zero ha)) a]
      rw [Nat.gcd_rec a b]

theorem extended_euclidean_bezout (a : Nat) :
    ∀ b, (a : Int) * (extended_euclidean a b).2.1
        + (b : Int) * (extended_euclidean a b).2.2
      = (extended_euclidean a b).1 := by
  induction a using Nat.strong_induction_on with
  | _ a ih =>
    intro b
    unfold extended_euclidean
    by_cases ha : a = 0
    · simp [ha]
    · simp only [ha, dite_false]
      have h := ih (b % a) (Nat.mod_lt b (Nat.pos_of_ne_zero ha)) a
      have hdm : (b : Int)
          = (a : Int) * ((b / a : Nat) : Int) + ((b % a : Nat) : Int) := by
        exact_mod_cast (Nat.div_add_mod b a).symm
      show (a : Int) * ((extended_euclidean (b % a) a).2.2
            - ((b / a : Nat) : Int) * (extended_euclidean (b % a) a).2.1)
          + (b : Int) * (extended_euclidean (b % a) a).2.1
        = (extended_euclidean (b % a) a).1
      linear_combination h + (extended_euclidean (b % a) a).2.1 * hdm

/-! ### Correctness of the modular inverse -/

theorem modular_inverse_some (a m : Nat) (hm : 2 ≤ m) (ha : a ≠ 0)
    (hg : Nat.gcd a m = 1) :
    ∃ i, modular_inverse_euclidean a m = some i ∧ i < m ∧ a * i % m = 1 := by
  have hmpos : (0 : Int) < (m : Int) := by exact_mod_cast Nat.lt_of_lt_of_le Nat.zero_lt_two hm
  have hg1 : (extended_euclidean a m).1 = 1 := by
    rw [extended_euclidean_gcd a m, hg]; rfl
  have hx : (extended_euclidean a m).2.1 % (m : Int) < (m : Int) :=
    Int.emod_lt_of_pos _ hmpos
  have hx0 : 0 ≤ (extended_euclidean a m).2.1 % (m : Int) :=
    Int.emod_nonneg _ (by omega)
  refine ⟨((extended_euclidean a m).2.1 % (m : Int)).toNat, ?_, ?_, ?_⟩
  · unfold modular_inverse_euclidean
    rw [if_neg ha, if_neg (by omega : ¬ m = 1)]
    simp only [hg1, ne_eq, not_true_eq_false, ite_false, if_neg (by omega : ¬ (1:Int) ≠ 1)]
    rw [if_neg (by omega : ¬ (extended_euclidean a m).2.1 % (m : Int) < 0)]
    rw [if_neg (by omega : ¬ (extended_euclidean a m).2.1 % (m : Int) < 0)]
  · omega
  · -- the Bézout identity gives `a * x ≡ 1 (mod m)` over the integers
    have hb := extended_euclidean_bezout a m
    rw [hg1] at hb
    have h1 : ((a : Int) * ((extended_euclidean a m).2.1 % (m : Int))) % (m : Int)
        = ((a : Int) * (extended_euclidean a m).2.1) % (m : Int) := by
      conv_lhs => rw [Int.mul_emod, Int.emod_emod_of_dvd _ dvd_rfl, ← Int.mul_emod]
    have h2 : ((a : Int) * (extended_euclidean a m).2.1) % (m : Int) = 1 := by
      have : (a : Int) * (extended_euclidean a m).2.1
          = 1 + (m : Int) * (-(extended_euclidean a m).2.2) := by linarith
      rw [this, Int.add_mul_emod_self_left]
      exact Int.emod_eq_of_lt (by omega) (by exact_mod_cast hm)
    have hi : ((((extended_euclidean a m).2.1 % (m : Int)).toNat : Nat) : Int)
        = (extended_euclidean a m).2.1 % (m : Int) := Int.toNat_of_nonneg hx0
    have hfin : ((a * ((extended_euclidean a m).2.1 % (m : Int)).toNat % m : Nat) : Int)
        = ((1 : Nat) : Int) := by
      push_cast
      rw [hi, h1, h2]
    exact_mod_cast hfin

theorem modular_inverse_none_iff (a m : Nat) (hm : m ≠ 0) :
    modular_inverse_euclidean a m = none
      ↔ (Nat.gcd a m ≠ 1 ∨ a = 0 ∨ m = 1) := by
  by_cases ha : a = 0
  · simp [modular_inverse_euclidean, ha]
  · by_cases hm1 : m = 1
    · simp [modular_inverse_euclidean, ha, hm1]
    · by_cases hg : Nat.gcd a m = 1
      · obtain ⟨i, hi, _, _⟩ := modular_inverse_some a m (by omega) ha hg
        rw [hi]
        simp [ha, hm1, hg]
      · have hg1 : (extended_euclidean a m).1 ≠ 1 := by
          rw [extended_euclidean_gcd a m]
          exact_mod_cast hg
        unfold modular_inverse_euclidean
        rw [if_neg ha, if_neg hm1]
        simp [hg1, ha, hm1, hg]

theorem modular_inverse_correct (a m i : Nat) (hm : 2 ≤ m)
    (h : modular_inverse_euclidean a m = some i) : i < m ∧ a * i % m = 1 := by
  have hnone : ¬ (Nat.gcd a m ≠ 1 ∨ a = 0 ∨ m = 1) := by
    rw [← modular_inverse_none_iff a m (by omega), h]
    simp
  push_neg at hnone
  obtain ⟨hg, ha, _⟩ := hnone
  obtain ⟨j, hj, hj1, hj2⟩ := modular_inverse_some a m hm ha hg
  rw [h] at hj
  cases hj
  exact ⟨hj1, hj2⟩

theorem mod_inverse_unique (m A i j : Nat) (hi : i < m) (hj : j < m)
    (h1 : A * i % m = 1) (h2 : A * j % m = 1) : i = j := by
  have hm : 2 ≤ m := by
    rcases (by omega : m = 0 ∨ m = 1 ∨ 2 ≤ m) with h | h | h
    · omega
    · rw [h] at h1; simp [Nat.mod_one] at h1
    · exact h
  have c1 : Nat.ModEq m (A * i) 1 := by
    unfold Nat.ModEq; rw [h1, Nat.mod_eq_of_lt (by omega : 1 < m)]
  have c2 : Nat.ModEq m (A * j) 1 := by
    unfold Nat.ModEq; rw [h2, Nat.mod_eq_of_lt (by omega : 1 < m)]
  have hij : Nat.ModEq m i j := by
    calc i = i * 1 := (mul_one i).symm
    _ ≡ i * (A * j) [MOD m] := Nat.ModEq.mul_left i c2.symm
    _ = (A * i) * j := by ring
    _ ≡ 1 * j [MOD m] := Nat.ModEq.mul_right j c1
    _ = j := one_mul j
  have h3 : i % m = j % m := hij
  rw [Nat.mod_eq_of_lt hi, Nat.mod_eq_of_lt hj] at h3
  exact h3

/-! ### Characterization of the engine steps -/

theorem compute_u_eq (key : Key) (g h q : Nat) (hq : 2 ≤ q) :
    compute_u key g h q
      = some ((g ^ key.alpha % q) * (h ^ key.beta % q) % q) := by
  unfold compute_u
  rw [mod_pow_big_nonneg g (key.alpha : Int) q hq (Int.natCast_nonneg _),
    mod_pow_big_nonneg h (key.beta : Int) q hq (Int.natCast_nonneg _)]
  simp only [Int.toNat_natCast]

theorem send_proof_eq (key : Key) (u ut : Nat) (c : Int) (g h q : Nat)
    (hq : 2 ≤ q) (hc : 0 ≤ c) :
    send_proof key u ut c g h q
      = some (if (g ^ key.alpha % q) * (h ^ key.beta % q) % q
              = ut * (u ^ c.toNat % q) % q
          then Outcome.Verified else Outcome.Rejected) := by
  unfold send_proof
  rw [compute_u_eq key g h q hq, mod_pow_big_nonneg u c q hq hc]

/-! ### Claim C3 (modular inverse) -/

/-- C3, counterexample: at `a = 1, m = 0` none of the claimed failure
conditions hold (`gcd 1 0 = 1`, `a ≠ 0`, `m ≠ 1`), yet
`modular_inverse_euclidean` cannot return "the unique inv in [0, m)" —
the range `[0, 0)` is empty (and the Rust source panics on `% 0` there),
so the claim as stated is false at this input. -/
theorem C3_counterexample :
    Nat.gcd 1 0 = 1 ∧ (1 : Nat) ≠ 0 ∧ (0 : Nat) ≠ 1
      ∧ ¬ ∃ i, modular_inverse_euclidean 1 0 = some i ∧ i < 0 := by
  refine ⟨rfl, by omega, by omega, ?_⟩
  rintro ⟨i, -, hi⟩
  omega

/-- C3, amended with `m ≠ 0`: `modular_inverse_euclidean a m` returns
`none` exactly when `gcd(a,m) ≠ 1`, `a = 0`, or `m = 1`; in every other
case it returns the unique `inv` in `[0, m)` with `(a * inv) % m = 1`. -/
theorem C3_modinverse_correct (a m : Nat) (hm : m ≠ 0) :
    (modular_inverse_euclidean a m = none
        ↔ (Nat.gcd a m ≠ 1 ∨ a = 0 ∨ m = 1))
      ∧ ∀ i, modular_inverse_euclidean a m = some i →
          i < m ∧ a * i % m = 1 ∧ ∀ j, j < m → a * j % m = 1 → j = i := by
  refine ⟨modular_inverse_none_iff a m hm, ?_⟩
  intro i hi
  have hm2 : 2 ≤ m := by
    rcases (by omega : m = 1 ∨ 2 ≤ m) with h | h
    · rw [h] at hi
      unfold modular_inverse_euclidean at hi
      by_cases ha : a = 0 <;> simp [ha] at hi
    · exact h
  obtain ⟨h1, h2⟩ := modular_inverse_correct a m i hm2 hi
  exact ⟨h1, h2, fun j hj hj2 => mod_inverse_unique m a j i hj h1 hj2 h2⟩

/-- Witness for C3: the amended theorem applied at `a = 4, m = 11`, with
the returned inverse pinned to the concrete value `3`. -/
theorem C3_witness : modular_inverse_euclidean 4 11 = some 3 := by
  have h := C3_modinverse_correct 4 11 (by omega)
  cases hv : modular_inverse_euclidean 4 11 with
  | none =>
    have h0 := h.1.mp hv
    norm_num at h0
  | some i =>
    obtain ⟨-, -, huniq⟩ := h.2 i hv
    rw [huniq 3 (by omega) (by norm_num)]

/-! ### Claim C4 (modPow failure contract) -/

/-- C4: `mod_pow_big` returns `none` if `m = 0`; returns `some 0` if
`m = 1`; for `m > 1` and negative exponent it returns `none` exactly when
the modular inverse of the base does not exist, and otherwise equals
`mod_pow_big` of the inverse base with the absolute exponent; for `m > 1`
and non-negative exponent it returns a value in `[0, m)`. -/
theorem C4_modpow_contract (b : Nat) (e : Int) (m : Nat) :
    (m = 0 → mod_pow_big b e m = none)
    ∧ (m = 1 → mod_pow_big b e m = some 0)
    ∧ (2 ≤ m → e < 0 →
        ((mod_pow_big b e m = none ↔ modular_inverse_euclidean b m = none)
          ∧ ∀ j, modular_inverse_euclidean b m = some j →
              mod_pow_big b e m = mod_pow_big j (-e) m))
    ∧ (2 ≤ m → 0 ≤ e → ∃ v, mod_pow_big b e m = some v ∧ v < m) := by
  refine ⟨?_, ?_, ?_, ?_⟩
  · rintro rfl
    simp [mod_pow_big]
  · rintro rfl
    simp [mod_pow_big]
  · intro hm he
    rw [mod_pow_big_neg b e m hm he]
    constructor
    · cases hv : modular_inverse_euclidean b m <;> simp [hv]
    · intro j hj
      rw [hj, mod_pow_big_nonneg j (-e) m hm (by omega)]
      rfl
  · intro hm he
    rw [mod_pow_big_nonneg b e m hm he]
    exact ⟨_, rfl, Nat.mod_lt _ (by omega)⟩

/-- Witness for C4: the contract applied at concrete inputs, one per
clause: `m = 0`, `m = 1`, a negative exponent with a non-invertible base
(`gcd(2,4) ≠ 1`), and a non-negative exponent. -/
theorem C4_witness :
    mod_pow_big 2 3 0 = none
    ∧ mod_pow_big 2 3 1 = some 0
    ∧ mod_pow_big 2 (-1) 4 = none
    ∧ ∃ v, mod_pow_big 2 3 11 = some v ∧ v < 11 := by
  refine ⟨(C4_modpow_contract 2 3 0).1 rfl, (C4_modpow_contract 2 3 1).2.1 rfl,
    ?_, (C4_modpow_contract 2 3 11).2.2.2 (by omega) (by omega)⟩
  refine ((C4_modpow_contract 2 (-1) 4).2.2.1 (by omega) (by omega)).1.mpr ?_
  exact (modular_inverse_none_iff 2 4 (by omega)).mpr (Or.inl (by norm_num))

/-! ### Claim C9 (zero exponent) -/

/-- C9: for every base `b` (including `0` and bases `≥ m`) and every
modulus `m ≥ 2`, `mod_pow_big b 0 m = some 1`: this implementation defines
`0 ^ 0 = 1`. -/
theorem C9_zero_exponent (b m : Nat) (hm : 2 ≤ m) :
    mod_pow_big b 0 m = some 1 := by
  rw [mod_pow_big_nonneg b 0 m hm le_rfl]
  simp [Nat.mod_eq_of_lt (by omega : 1 < m)]

/-- Witness for C9, at `b = 0, m = 13` (the source's own test case). -/
theorem C9_witness : mod_pow_big 0 0 13 = some 1 :=
  C9_zero_exponent 0 13 (by omega)

/-! ### Claim C10 (totality on non-negative exponents) -/

/-- C10: `mod_pow_big` always returns `some` for a non-negative exponent
and positive modulus; consequently, for `q > 3` the two `.unwrap()` calls
inside `compute_u` cannot panic (`compute_u` only passes the non-negative
witness components as exponents), i.e. `compute_u` returns `some`. -/
theorem C10_totality :
    (∀ (b : Nat) (e : Int) (m : Nat), 0 ≤ e → 1 ≤ m →
        (mod_pow_big b e m).isSome)
    ∧ ∀ (key : Key) (g h q : Nat), 3 < q → (compute_u key g h q).isSome := by
  constructor
  · intro b e m he hm
    rcases (by omega : m = 1 ∨ 2 ≤ m) with h | h
    · subst h
      simp [mod_pow_big]
    · rw [mod_pow_big_nonneg b e m h he]
      rfl
  · intro key g h q hq
    have h1 := mod_pow_big_nonneg g (key.alpha : Int) q (by omega)
      (Int.natCast_nonneg _)
    have h2 := mod_pow_big_nonneg h (key.beta : Int) q (by omega)
      (Int.natCast_nonneg _)
    simp [compute_u, h1, h2]

/-- Witness for C10, at the repository's group parameters
(`q = 11, g = 2, h = 3`) and the commented-in fixture key `(5, 2)`. -/
theorem C10_witness :
    (mod_pow_big 2 5 11).isSome ∧ (compute_u ⟨5, 2⟩ 2 3 11).isSome :=
  ⟨C10_totality.1 2 5 11 (by omega) (by omega),
    C10_totality.2 ⟨5, 2⟩ 2 3 11 (by omega)⟩

/-! ### Claim C1 (completeness) -/

/-- C1, counterexample: an honest run that is rejected.  With
`q = 11, g = 2, h = 1`, secret witness `(5, 0)`, blinding witness `(6, 0)`
and challenge `c = 1` (all parameters within the claimed ranges), the
honestly computed response is `((6 + 5*1) % 11, 0) = (0, 0)`, and the
verification ends in `Rejected` (`u_z = 1` but `u_t * u^c % q = 2`): the
mod-q reduction of the response exponents breaks completeness, because the
orders of `g` and `h` do not divide `q`. -/
theorem C1_counterexample :
    (3 : Nat) < 11 ∧ (2 : Nat) < 11 ∧ (1 : Nat) < 11 ∧ (5 : Nat) < 11
      ∧ (0 : Nat) < 11 ∧ (6 : Nat) < 11 ∧ (1 : Nat) < 11
      ∧ honest_run 11 2 1 5 0 6 0 1 = some Outcome.Rejected := by
  refine ⟨by omega, by omega, by omega, by omega, by omega, by omega,
    by omega, ?_⟩
  unfold honest_run
  rw [compute_u_eq ⟨5, 0⟩ 2 1 11 (by omega),
    compute_u_eq ⟨6, 0⟩ 2 1 11 (by omega)]
  norm_num
  rw [send_proof_eq ⟨0, 0⟩ 10 9 1 2 1 11 (by omega) (by omega)]
  norm_num

/-- C1, amended: completeness holds when the honest response is computed
without the final mod-q reduction (`alpha_z = alpha_t + alpha*c`,
`beta_z = beta_t + beta*c` over the integers): for every `q > 3`, all
`g, h`, witnesses and challenge, if `u` and `u_t` are the commitments
computed by `compute_u`, then `send_proof` ends in `Verified`. -/
theorem C1_completeness_unreduced
    (q g h alpha beta alphat betat c u ut : Nat) (hq : 3 < q)
    (hu : compute_u ⟨alpha, beta⟩ g h q = some u)
    (hut : compute_u ⟨alphat, betat⟩ g h q = some ut) :
    send_proof ⟨alphat + alpha * c, betat + beta * c⟩ u ut (c : Int) g h q
      = some Outcome.Verified := by
  have hq2 : 2 ≤ q := by omega
  rw [compute_u_eq ⟨alpha, beta⟩ g h q hq2] at hu
  rw [compute_u_eq ⟨alphat, betat⟩ g h q hq2] at hut
  injection hu with hu
  injection hut with hut
  subst hu hut
  rw [send_proof_eq ⟨alphat + alpha * c, betat + beta * c⟩ _ _ _ g h q hq2
    (Int.natCast_nonneg c)]
  simp only [Int.toNat_natCast]
  rw [if_pos]
  have h1 : Nat.ModEq q
      ((g ^ (alphat + alpha * c) % q) * (h ^ (betat + beta * c) % q))
      (g ^ (alphat + alpha * c) * h ^ (betat + beta * c)) :=
    (Nat.mod_modEq _ q).mul (Nat.mod_modEq _ q)
  have h2 : Nat.ModEq q
      (((g ^ alphat % q) * (h ^ betat % q) % q)
        * (((g ^ alpha % q) * (h ^ beta % q) % q) ^ c % q))
      ((g ^ alphat * h ^ betat) * (g ^ alpha * h ^ beta) ^ c) := by
    apply Nat.ModEq.mul
    · calc (g ^ alphat % q) * (h ^ betat % q) % q
          ≡ (g ^ alphat % q) * (h ^ betat % q) [MOD q] := Nat.mod_modEq _ q
        _ ≡ g ^ alphat * h ^ betat [MOD q] :=
          (Nat.mod_modEq _ q).mul (Nat.mod_modEq _ q)
    · calc ((g ^ alpha % q) * (h ^ beta % q) % q) ^ c % q
          ≡ ((g ^ alpha % q) * (h ^ beta % q) % q) ^ c [MOD q] :=
          Nat.mod_modEq _ q
        _ ≡ ((g ^ alpha % q) * (h ^ beta % q)) ^ c [MOD q] :=
          (Nat.mod_modEq _ q).pow c
        _ ≡ (g ^ alpha * h ^ beta) ^ c [MOD q] :=
          ((Nat.mod_modEq _ q).mul (Nat.mod_modEq _ q)).pow c
  have h3 : g ^ (alphat + alpha * c) * h ^ (betat + beta * c)
      = (g ^ alphat * h ^ betat) * (g ^ alpha * h ^ beta) ^ c := by
    rw [pow_add, pow_add, pow_mul, pow_mul, mul_pow]
    ring
  have hfin : Nat.ModEq q
      ((g ^ (alphat + alpha * c) % q) * (h ^ (betat + beta * c) % q))
      (((g ^ alphat % q) * (h ^ betat % q) % q)
        * (((g ^ alpha % q) * (h ^ beta % q) % q) ^ c % q)) := by
    calc (g ^ (alphat + alpha * c) % q) * (h ^ (betat + beta * c) % q)
        ≡ g ^ (alphat + alpha * c) * h ^ (betat + beta * c) [MOD q] := h1
      _ = (g ^ alphat * h ^ betat) * (g ^ alpha * h ^ beta) ^ c := h3
      _ ≡ ((g ^ alphat % q) * (h ^ betat % q) % q)
            * (((g ^ alpha % q) * (h ^ beta % q) % q) ^ c % q) [MOD q] :=
        h2.symm
  exact hfin

/-- Witness for C1 (amended), at the golden-fixture parameters
`q = 11, g = 2, h = 3`, secret `(5, 2)`, blinding `(3, 7)`, `c = 4`,
with unreduced response `(3 + 5*4, 7 + 2*4) = (23, 15)`. -/
theorem C1_witness :
    send_proof ⟨3 + 5 * 4, 7 + 2 * 4⟩ 2 6 ((4 : Nat) : Int) 2 3 11
      = some Outcome.Verified := by
  have hu : compute_u ⟨5, 2⟩ 2 3 11 = some 2 := by
    rw [compute_u_eq ⟨5, 2⟩ 2 3 11 (by omega)]
    norm_num
  have hut : compute_u ⟨3, 7⟩ 2 3 11 = some 6 := by
    rw [compute_u_eq ⟨3, 7⟩ 2 3 11 (by omega)]
    norm_num
  exact C1_completeness_unreduced 11 2 3 5 2 3 7 4 2 6 (by omega) hu hut

/-! ### Claim C2 (golden fixture) -/

/-- C2, counterexample: at the fixture `q = 11, g = 2, h = 3`, secret
`(5, 2)`, blinding `(3, 7)`, challenge `4`, the engine computes
`u_t = (2^3 * 3^7) mod 11 = 6`, not `3` as the claim states
(the spec miscomputed `17496 mod 11`), and the run ends in `Verified`,
not `Rejected`. -/
theorem C2_counterexample :
    compute_u ⟨3, 7⟩ 2 3 11 = some 6 ∧ (6 : Nat) ≠ 3
      ∧ honest_run 11 2 3 5 2 3 7 4 = some Outcome.Verified
      ∧ Outcome.Verified ≠ Outcome.Rejected := by
  have hut : compute_u ⟨3, 7⟩ 2 3 11 = some 6 := by
    rw [compute_u_eq ⟨3, 7⟩ 2 3 11 (by omega)]
    norm_num
  refine ⟨hut, by omega, ?_, by simp⟩
  unfold honest_run
  rw [compute_u_eq ⟨5, 2⟩ 2 3 11 (by omega), hut]
  norm_num
  rw [send_proof_eq ⟨1, 4⟩ 2 6 4 2 3 11 (by omega) (by omega)]
  decide

/-- C2, amended: the golden fixture with the values the implementation
actually produces: `u = 2`, `u_t = 6`, response `(1, 4)`, `u_z = 8`,
`u^c mod 11 = 5`, `expected = (6 * 5) mod 11 = 8`, and since `8 = 8` the
outcome is `Verified`. -/
theorem C2_golden_fixture :
    compute_u ⟨5, 2⟩ 2 3 11 = some 2
      ∧ compute_u ⟨3, 7⟩ 2 3 11 = some 6
      ∧ (3 + 5 * 4) % 11 = 1 ∧ (7 + 2 * 4) % 11 = 4
      ∧ compute_u ⟨1, 4⟩ 2 3 11 = some 8
      ∧ mod_pow_big 2 4 11 = some 5
      ∧ 6 * 5 % 11 = 8
      ∧ send_proof ⟨1, 4⟩ 2 6 4 2 3 11 = some Outcome.Verified := by
  refine ⟨?_, ?_, by norm_num, by norm_num, ?_, ?_, by norm_num, ?_⟩
  · rw [compute_u_eq ⟨5, 2⟩ 2 3 11 (by omega)]
    norm_num
  · rw [compute_u_eq ⟨3, 7⟩ 2 3 11 (by omega)]
    norm_num
  · rw [compute_u_eq ⟨1, 4⟩ 2 3 11 (by omega)]
    norm_num
  · rw [mod_pow_big_nonneg 2 4 11 (by omega) (by omega)]
    decide
  · rw [send_proof_eq ⟨1, 4⟩ 2 6 4 2 3 11 (by omega) (by omega)]
    decide

/-! ### Claim C7 (numeric failures map to Failed, no panics) -/

/-- C7: in a run with positive modulus, `compute_u` never panics (its two
`.unwrap()` calls always see `some`), and whenever
`mod_pow_big(u, c, q)` returns `none` during verification, `send_proof`
terminates with the distinct `Failed` transcript outcome, not
`Rejected`. -/
theorem C7_failure_handling :
    (∀ (key : Key) (g h q : Nat), 0 < q → (compute_u key g h q).isSome)
    ∧ ∀ (key : Key) (u ut : Nat) (c : Int) (g h q : Nat), 0 < q →
        mod_pow_big u c q = none →
        send_proof key u ut c g h q = some Outcome.Failed
          ∧ Outcome.Failed ≠ Outcome.Rejected := by
  have htot : ∀ (key : Key) (g h q : Nat), 0 < q →
      (compute_u key g h q).isSome := by
    intro key g h q hq
    rcases (by omega : q = 1 ∨ 2 ≤ q) with h1 | h1
    · subst h1
      simp [compute_u, mod_pow_big]
    · rw [compute_u_eq key g h q h1]
      rfl
  refine ⟨htot, ?_⟩
  intro key u ut c g h q hq hnone
  cases hcu : compute_u key g h q with
  | none =>
    have := htot key g h q hq
    rw [hcu] at this
    simp at this
  | some uz =>
    unfold send_proof
    rw [hcu, hnone]
    exact ⟨rfl, by simp⟩

/-- Witness for C7: the repository's parameters `q = 11, g = 2, h = 3`
with key `(5, 2)`; for the failure branch, `u = 0` with challenge `-1`
(`0` has no inverse mod `11`), on which `mod_pow_big` returns `none` and
the outcome is `Failed`. -/
theorem C7_witness :
    (compute_u ⟨5, 2⟩ 2 3 11).isSome
      ∧ send_proof ⟨5, 2⟩ 0 6 (-1) 2 3 11 = some Outcome.Failed := by
  have hnone : mod_pow_big 0 (-1) 11 = none := by
    rw [mod_pow_big_neg 0 (-1) 11 (by omega) (by omega)]
    rw [(modular_inverse_none_iff 0 11 (by omega)).mpr (Or.inr (Or.inl rfl))]
    rfl
  exact ⟨C7_failure_handling.1 ⟨5, 2⟩ 2 3 11 (by omega),
    (C7_failure_handling.2 ⟨5, 2⟩ 0 6 (-1) 2 3 11 (by omega) hnone).1⟩

/-! ### Claim C5 (modPow round-trip) -/

theorem pow_inverse_mod (a j n m : Nat) (hm : 2 ≤ m) (hj : a * j % m = 1) :
    (a ^ n % m) * (j ^ n % m) % m = 1 := by
  have h1 : Nat.ModEq m ((a ^ n % m) * (j ^ n % m)) ((a * j) ^ n) := by
    calc (a ^ n % m) * (j ^ n % m)
        ≡ a ^ n * j ^ n [MOD m] := (Nat.mod_modEq _ m).mul (Nat.mod_modEq _ m)
      _ = (a * j) ^ n := (mul_pow a j n).symm
  have h2 : Nat.ModEq m ((a * j) ^ n) 1 := by
    calc (a * j) ^ n
        ≡ (a * j % m) ^ n [MOD m] := (Nat.mod_modEq _ m).symm.pow n
      _ = 1 ^ n := by rw [hj]
      _ = 1 := one_pow n
  have h3 : ((a ^ n % m) * (j ^ n % m)) % m = 1 % m := h1.trans h2
  rw [Nat.mod_eq_of_lt (by omega : 1 < m)] at h3
  exact h3

/-- C5: for every `a` coprime to `m` and every signed exponent `e`,
whenever both sides are defined,
`mod_pow_big (mod_pow_big a e m) (-1) m = mod_pow_big a (-e) m`. -/
theorem C5_modpow_roundtrip (a m : Nat) (e : Int) (hg : Nat.gcd a m = 1)
    (h1 : ((mod_pow_big a e m).bind fun x => mod_pow_big x (-1) m).isSome)
    (h2 : (mod_pow_big a (-e) m).isSome) :
    ((mod_pow_big a e m).bind fun x => mod_pow_big x (-1) m)
      = mod_pow_big a (-e) m := by
  rcases (by omega : m = 0 ∨ m = 1 ∨ 2 ≤ m) with hm | hm | hm
  · subst hm
    simp [mod_pow_big] at h1
  · subst hm
    simp [mod_pow_big]
  · have hmpos : 0 < m := by omega
    rcases (by omega : 0 ≤ e ∨ e < 0) with he | he
    · -- non-negative exponent: the inner power is `a ^ n % m`
      rw [mod_pow_big_nonneg a e m hm he] at h1 ⊢
      simp only [Option.some_bind] at h1 ⊢
      rw [mod_pow_big_neg _ (-1) m hm (by omega)] at h1 ⊢
      cases hA : modular_inverse_euclidean (a ^ e.toNat % m) m with
      | none =>
        rw [hA] at h1
        simp at h1
      | some i =>
        obtain ⟨hilt, hii⟩ := modular_inverse_correct _ m i hm hA
        have hival : (fun j => j ^ (-(-1) : Int).toNat % m) i = i := by
          simp [Nat.mod_eq_of_lt hilt]
        rcases (by omega : e = 0 ∨ 0 < e) with he0 | he0
        · subst he0
          have hA1 : a ^ (0 : Int).toNat % m = 1 := by
            simp [Nat.mod_eq_of_lt (by omega : 1 < m)]
          rw [hA1, one_mul, Nat.mod_eq_of_lt hilt] at hii
          rw [neg_zero, mod_pow_big_nonneg a 0 m hm le_rfl, hA1]
          simp only [Option.map_some', hival]
          rw [hii]
        · rw [mod_pow_big_neg a (-e) m hm (by omega)]
          cases hj : modular_inverse_euclidean a m with
          | none =>
            rw [mod_pow_big_neg a (-e) m hm (by omega), hj] at h2
            simp at h2
          | some j =>
            obtain ⟨hjlt, hji⟩ := modular_inverse_correct a m j hm hj
            have hinv2 : (a ^ e.toNat % m) * (j ^ e.toNat % m) % m = 1 :=
              pow_inverse_mod a j e.toNat m hm hji
            have huni : i = j ^ e.toNat % m :=
              mod_inverse_unique m (a ^ e.toNat % m) i (j ^ e.toNat % m)
                hilt (Nat.mod_lt _ hmpos) hii hinv2
            simp only [Option.map_some', huni, neg_neg, Int.toNat_one, pow_one]
            rw [Nat.mod_eq_of_lt (Nat.mod_lt _ hmpos)]
    · -- negative exponent: the inner value is `j ^ n % m` for the inverse `j`
      rw [mod_pow_big_neg a e m hm he] at h1 ⊢
      cases hj : modular_inverse_euclidean a m with
      | none =>
        rw [hj] at h1
        simp at h1
      | some j =>
        obtain ⟨hjlt, hji⟩ := modular_inverse_correct a m j hm hj
        rw [hj] at h1
        simp only [Option.map_some', Option.some_bind] at h1 ⊢
        rw [mod_pow_big_neg _ (-1) m hm (by omega)] at h1 ⊢
        cases hB : modular_inverse_euclidean (j ^ (-e).toNat % m) m with
        | none =>
          rw [hB] at h1
          simp at h1
        | some i =>
          obtain ⟨hilt, hii⟩ := modular_inverse_correct _ m i hm hB
          rw [mod_pow_big_nonneg a (-e) m hm (by omega)]
          have hinv2 : (j ^ (-e).toNat % m) * (a ^ (-e).toNat % m) % m = 1 :=
            pow_inverse_mod j a (-e).toNat m hm (by rwa [mul_comm j a])
          have huni : i = a ^ (-e).toNat % m :=
            mod_inverse_unique m (j ^ (-e).toNat % m) i (a ^ (-e).toNat % m)
              hilt (Nat.mod_lt _ hmpos) hii hinv2
          simp [huni, Nat.mod_eq_of_lt (Nat.mod_lt (a ^ (-e).toNat) hmpos)]

/-- Witness for C5, at `a = 2, m = 11, e = 3`: both sides evaluate to
`some 7` (the inverse of `2^3 = 8` mod 11). -/
theorem C5_witness :
    Nat.gcd 2 11 = 1
      ∧ ((mod_pow_big 2 3 11).bind fun x => mod_pow_big x (-1) 11)
          = mod_pow_big 2 (-3) 11 := by
  have hinner : mod_pow_big 2 3 11 = some 8 := by
    rw [mod_pow_big_nonneg 2 3 11 (by omega) (by omega)]
    decide
  have hinv8 : modular_inverse_euclidean 8 11 = some 7 := by
    simp [modular_inverse_euclidean, extended_euclidean]
  have hinv2 : modular_inverse_euclidean 2 11 = some 6 := by
    simp [modular_inverse_euclidean, extended_euclidean]
  have hL : ((mod_pow_big 2 3 11).bind fun x => mod_pow_big x (-1) 11).isSome := by
    rw [hinner]
    simp only [Option.some_bind]
    rw [mod_pow_big_neg 8 (-1) 11 (by omega) (by omega), hinv8]
    rfl
  have hR : (mod_pow_big 2 (-3) 11).isSome := by
    rw [mod_pow_big_neg 2 (-3) 11 (by omega) (by omega), hinv2]
    rfl
  exact ⟨by norm_num, C5_modpow_roundtrip 2 11 3 (by norm_num) hL hR⟩

/-! ### Claim C6 (Miller–Rabin has no false negatives) -/

theorem oddPart_spec (t : Nat) (ht : 0 < t) :
    t = 2 ^ (oddPart t).1 * (oddPart t).2 ∧ (oddPart t).2 % 2 = 1 := by
  induction t using Nat.strong_induction_on with
  | _ t ih =>
    unfold oddPart
    by_cases h : t % 2 = 0 ∧ t ≠ 0
    · rw [dif_pos h]
      have hdiv : t / 2 < t := Nat.div_lt_self (by omega) one_lt_two
      obtain ⟨h1, h2⟩ := ih (t / 2) hdiv (by omega)
      refine ⟨?_, h2⟩
      show t = 2 ^ ((oddPart (t / 2)).1 + 1) * (oddPart (t / 2)).2
      have ht2 : t = 2 * (t / 2) := by omega
      rw [pow_succ]
      calc t = 2 * (t / 2) := ht2
        _ = 2 * (2 ^ (oddPart (t / 2)).1 * (oddPart (t / 2)).2) := by rw [← h1]
        _ = 2 ^ (oddPart (t / 2)).1 * 2 * (oddPart (t / 2)).2 := by ring
    · rw [dif_neg h]
      refine ⟨by simp, ?_⟩
      show t % 2 = 1
      omega

theorem natCast_inj_of_lt (p x y : Nat) (hp : 0 < p) (hx : x < p) (hy : y < p)
    (h : (x : ZMod p) = (y : ZMod p)) : x = y := by
  haveI : NeZero p := ⟨by omega⟩
  have h2 := congrArg ZMod.val h
  rwa [ZMod.val_cast_of_lt hx, ZMod.val_cast_of_lt hy] at h2

theorem natCast_pred_eq_neg_one (p : Nat) (hp : 2 ≤ p) :
    ((p - 1 : Nat) : ZMod p) = -1 := by
  have h1 : ((p - 1 : Nat) : ZMod p) = (p : ZMod p) - 1 := by
    rw [Nat.cast_sub (by omega : 1 ≤ p)]
    simp
  rw [h1, ZMod.natCast_self]
  ring

theorem sq_eq_one_cases {F : Type} [Field F] (z : F) (h : z ^ 2 = 1) :
    z = 1 ∨ z = -1 := by
  have h2 : (z - 1) * (z + 1) = 0 := by linear_combination h
  rcases mul_eq_zero.mp h2 with h3 | h3
  · exact Or.inl (sub_eq_zero.mp h3)
  · exact Or.inr (eq_neg_of_add_eq_zero_left h3)

theorem mrSquareLoop_true (p : Nat) (hp : p.Prime) (hp5 : 5 ≤ p) :
    ∀ (f x : Nat), x < p → x ≠ 1 → x ≠ p - 1 →
      ((x : ZMod p) ^ 2 ^ f = 1 ∨ (x : ZMod p) ^ 2 ^ f = -1) →
      mrSquareLoop p x f = true := by
  haveI : Fact p.Prime := ⟨hp⟩
  intro f
  induction f with
  | zero =>
    intro x hx h1 h2 hpow
    exfalso
    rw [pow_zero, pow_one] at hpow
    rcases hpow with hc | hc
    · exact h1 (natCast_inj_of_lt p x 1 (by omega) hx (by omega)
        (by rw [hc]; simp))
    · refine h2 (natCast_inj_of_lt p x (p - 1) (by omega) hx (by omega) ?_)
      rw [hc, natCast_pred_eq_neg_one p (by omega)]
  | succ f ih =>
    intro x hx h1 h2 hpow
    have hmp : mod_pow_big x 2 p = some (x ^ 2 % p) := by
      rw [mod_pow_big_nonneg x 2 p (by omega) (by omega)]
      simp
    have hcast : ((x ^ 2 % p : Nat) : ZMod p) = (x : ZMod p) ^ 2 := by
      rw [ZMod.natCast_mod]
      push_cast
      rfl
    simp only [mrSquareLoop]
    rw [hmp]
    by_cases hy1 : x ^ 2 % p = 1
    · exfalso
      have hsq : (x : ZMod p) ^ 2 = 1 := by
        rw [← hcast, hy1]
        simp
      rcases sq_eq_one_cases _ hsq with hc | hc
      · exact h1 (natCast_inj_of_lt p x 1 (by omega) hx (by omega)
          (by rw [hc]; simp))
      · refine h2 (natCast_inj_of_lt p x (p - 1) (by omega) hx (by omega) ?_)
        rw [hc, natCast_pred_eq_neg_one p (by omega)]
    · by_cases hy2 : x ^ 2 % p = p - 1
      · simp [hy1, hy2]
        omega
      · have hpow2 : ((x ^ 2 % p : Nat) : ZMod p) ^ 2 ^ f = 1
            ∨ ((x ^ 2 % p : Nat) : ZMod p) ^ 2 ^ f = -1 := by
          rw [hcast, ← pow_mul]
          have h2f : 2 * 2 ^ f = 2 ^ (f + 1) := by
            rw [pow_succ]
            ring
          rw [h2f]
          exact hpow
        have hrec := ih (x ^ 2 % p) (Nat.mod_lt _ (by omega)) hy1 hy2 hpow2
        simp [hy1, hy2, hrec]

theorem mrRound_true (p : Nat) (hp : p.Prime) (hp5 : 5 ≤ p)
    (s t : Nat) (ht : t % 2 = 1) (hst : p - 1 = 2 ^ s * t)
    (a : Nat) (ha0 : 0 < a) (hap : a < p) :
    mrRound p t s a = true := by
  haveI : Fact p.Prime := ⟨hp⟩
  have hodd : p % 2 = 1 := Nat.odd_iff.mp (hp.odd_of_ne_two (by omega))
  have hane : (a : ZMod p) ≠ 0 := by
    haveI : NeZero p := ⟨by omega⟩
    intro h0
    have hv := congrArg ZMod.val h0
    rw [ZMod.val_cast_of_lt hap, ZMod.val_zero] at hv
    omega
  have hfermat : ((a : ZMod p) ^ t) ^ 2 ^ s = 1 := by
    rw [← pow_mul, mul_comm, ← hst]
    exact ZMod.pow_card_sub_one_eq_one hane
  unfold mrRound
  rw [mod_pow_big_nonneg a (t : Int) p (by omega) (Int.natCast_nonneg _)]
  simp only [Int.toNat_natCast]
  by_cases hx : a ^ t % p = 1 ∨ a ^ t % p = p - 1
  · simp [hx]
  · push_neg at hx
    have hcast : ((a ^ t % p : Nat) : ZMod p) = (a : ZMod p) ^ t := by
      rw [ZMod.natCast_mod]
      push_cast
      rfl
    have hs2 : 2 ^ (s - 1) * 2 = 2 ^ s := by
      have hs1 : 1 ≤ s := by
        rcases Nat.eq_zero_or_pos s with h | h
        · subst h
          rw [pow_zero, one_mul] at hst
          omega
        · exact h
      rw [← pow_succ]
      congr 1
      omega
    have hpow : ((a ^ t % p : Nat) : ZMod p) ^ 2 ^ (s - 1) = 1
        ∨ ((a ^ t % p : Nat) : ZMod p) ^ 2 ^ (s - 1) = -1 := by
      refine sq_eq_one_cases _ ?_
      rw [hcast, ← pow_mul, ← pow_mul, hs2, pow_mul]
      exact hfermat
    have hloop := mrSquareLoop_true p hp hp5 (s - 1) (a ^ t % p)
      (Nat.mod_lt _ (by omega)) hx.1 hx.2 hpow
    simp [hx.1, hx.2, hloop]

/-- C6: Miller–Rabin has no false negatives: for every prime `p < 10^6`
and at least one round, `is_prime_miller_rabin` returns `true` regardless
of which random witnesses (drawn from `[2, p-2)`) are used; and the
trivial cases hold (`n ≤ 1` gives `false`, `n ∈ {2, 3}` gives `true`,
even `n` other than 2 gives `false`). -/
theorem C6_miller_rabin_complete (p : Nat) (ws : List Nat) (hp : p.Prime)
    (hlt : p < 1000000) (hk : 1 ≤ ws.length)
    (hrange : ∀ a ∈ ws, 2 ≤ a ∧ a < p - 2) :
    is_prime_miller_rabin p ws = true
      ∧ (∀ (n : Nat) (l : List Nat), n ≤ 1 →
          is_prime_miller_rabin n l = false)
      ∧ (∀ l : List Nat, is_prime_miller_rabin 2 l = true
          ∧ is_prime_miller_rabin 3 l = true)
      ∧ (∀ (n : Nat) (l : List Nat), n % 2 = 0 → n ≠ 2 →
          is_prime_miller_rabin n l = false) := by
  refine ⟨?_, ?_, ?_, ?_⟩
  · by_cases h23 : p = 2 ∨ p = 3
    · unfold is_prime_miller_rabin
      rcases h23 with h | h <;> subst h <;> simp
    · have hp5 : 5 ≤ p := by
        have h2 := hp.two_le
        rcases (by omega : p = 2 ∨ p = 3 ∨ p = 4 ∨ 5 ≤ p) with h | h | h | h
        · exact absurd (Or.inl h) h23
        · exact absurd (Or.inr h) h23
        · subst h
          norm_num at hp
        · exact h
      have hodd : p % 2 = 1 := Nat.odd_iff.mp (hp.odd_of_ne_two (by omega))
      unfold is_prime_miller_rabin
      rw [if_neg (by omega : ¬ p ≤ 1), if_neg h23, if_neg (by omega : ¬ p % 2 = 0)]
      obtain ⟨hsplit, htodd⟩ := oddPart_spec (p - 1) (by omega)
      rw [List.all_eq_true]
      intro a ha
      obtain ⟨ha2, ha3⟩ := hrange a ha
      exact mrRound_true p hp hp5 (oddPart (p - 1)).1 (oddPart (p - 1)).2
        htodd hsplit a (by omega) (by omega)
  · intro n l h
    simp [is_prime_miller_rabin, h]
  · intro l
    constructor <;> simp [is_prime_miller_rabin]
  · intro n l he hn2
    by_cases h1 : n ≤ 1
    · simp [is_prime_miller_rabin, h1]
    · have h3 : n ≠ 3 := by omega
      simp [is_prime_miller_rabin, h1, hn2, h3, he]

/-- Witness for C6: the prime `5` with the single witness `2` (the only
value in `[2, 5-2)`). -/
theorem C6_witness :
    Nat.Prime 5 ∧ (5 : Nat) < 1000000 ∧ 1 ≤ ([2] : List Nat).length
      ∧ (∀ a ∈ ([2] : List Nat), 2 ≤ a ∧ a < 5 - 2)
      ∧ is_prime_miller_rabin 5 [2] = true :=
  ⟨by norm_num, by norm_num, by decide, by decide,
    (C6_miller_rabin_complete 5 [2] (by norm_num) (by norm_num) (by decide)
      (by decide)).1⟩

end SigmaProtocol
